import Mathlib

/-!
Shallow embedding of the donation-wizard mailroom program
(students/john_navitsky/session06/mailroom.py).

The embedding models the core of the program: `parse_name`,
`get_donation_amount`, the donor-matching loop and store mutation inside
`thank_you_entry`, and the row computation of `print_report`.  Python
strings are modelled as `String` (lists of characters); the ASCII case
operations `str.upper` / `str.lower` / `str.title` are modelled with
`Char.toUpper` / `Char.toLower`, which coincide with Python's behaviour on
ASCII text.  Donation amounts (Python floats) are modelled as rationals;
the decimal literals involved in the program's observable behaviour are
represented exactly.  A Python function that can raise an uncaught
exception is modelled with `Option`, `none` being the exception.
-/

namespace Mailroom

/-! ### List-level models of the Python string operations

Python `str.strip` removes leading and trailing whitespace; `str.upper`
and `str.lower` map each character through the ASCII case maps;
`str.title` upper-cases every letter that follows a non-letter and
lower-cases every letter that follows a letter; `str.split()` with no
argument splits on runs of whitespace discarding empty pieces;
`str.split(",")` splits on every comma keeping empty pieces;
`" ".join(ws)` interleaves a single space. -/

/-- Trailing-whitespace removal (the right half of Python `str.strip`). -/
def rdropWs : List Char → List Char
  | [] => []
  | c :: t =>
    match rdropWs t with
    | [] => if c.isWhitespace then [] else [c]
    | d :: r => c :: d :: r

/-- Model of Python `str.strip()`. -/
def stripL (l : List Char) : List Char := rdropWs (l.dropWhile Char.isWhitespace)

/-- Model of Python `str.upper()` (ASCII). -/
def upperL (l : List Char) : List Char := l.map Char.toUpper

/-- Model of Python `str.lower()` (ASCII). -/
def lowerL (l : List Char) : List Char := l.map Char.toLower

/-- One character of Python `str.title()` (ASCII): a letter after a
non-letter is upper-cased, a letter after a letter is lower-cased, other
characters pass through. -/
def titleChar (prev : Bool) (c : Char) : Char :=
  if c.isAlpha then (if prev then Char.toLower c else Char.toUpper c) else c

/-- Model of Python `str.title()` (ASCII): the boolean records whether the
previous character was a letter. -/
def titleAux : Bool → List Char → List Char
  | _, [] => []
  | prev, c :: t => titleChar prev c :: titleAux c.isAlpha t

/-- Model of Python `str.title()`. -/
def titleL (l : List Char) : List Char := titleAux false l

/-- Helper for `wordsL`: split at every whitespace character, keeping
empty pieces; returns the first piece and the remaining pieces. -/
def splitWsAux : List Char → List Char × List (List Char)
  | [] => ([], [])
  | c :: t =>
    let r := splitWsAux t
    if c.isWhitespace then ([], r.1 :: r.2) else (c :: r.1, r.2)

/-- Model of Python `str.split()` with no argument: split at whitespace
and discard the empty pieces (equivalently, split on whitespace runs). -/
def wordsL (l : List Char) : List (List Char) :=
  ((splitWsAux l).1 :: (splitWsAux l).2).filter (fun w => !w.isEmpty)

/-- Helper for `splitOnChar`: the first piece and the remaining pieces. -/
def splitOnCharAux (sep : Char) : List Char → List Char × List (List Char)
  | [] => ([], [])
  | c :: t =>
    let r := splitOnCharAux sep t
    if c = sep then ([], r.1 :: r.2) else (c :: r.1, r.2)

/-- Model of Python `str.split(sep)` for a one-character separator
(empty pieces kept). -/
def splitOnChar (sep : Char) (l : List Char) : List (List Char) :=
  (splitOnCharAux sep l).1 :: (splitOnCharAux sep l).2

/-- Model of Python `" ".join(pieces)`. -/
def joinSep : List (List Char) → List Char
  | [] => []
  | [w] => w
  | w :: v :: ws => w ++ ' ' :: joinSep (v :: ws)

/-- Model of Python `s.strip()` at the `String` level. -/
def pyStrip (s : String) : String := String.mk (stripL s.data)

/-- Model of Python `s.lower()` at the `String` level. -/
def pyLower (s : String) : String := String.mk (lowerL s.data)

/-- Model of Python `s.lower().strip()`, the key-normalisation used by the
matching loop of `thank_you_entry`. -/
def lowerStrip (s : String) : String := pyStrip (pyLower s)

/-! ### The name parser (`parse_name`, mailroom.py lines 100-125) -/

/-- The dict returned by `parse_name`, in the source's field order. -/
structure NameParts where
  full_name : String
  informal_name : String
  suffix : String
  last_name : String
  first_name : String
deriving DecidableEq

/-- `parse_name` (lines 100-125).  The bare `except` around the suffix
extraction turns a missing comma into an empty suffix; the unguarded
`informal_name.split()[-1]` raises `IndexError` when the part before the
comma has no words, modelled by `none`. -/
def parseName (full_name : String) : Option NameParts :=
  match splitOnChar ',' full_name.data with
  | [] => none
  | before :: parts =>
    let suffix : List Char :=
      match parts with
      | [] => []
      | p1 :: _ => upperL (stripL p1)
    let informal := titleL (stripL before)
    match wordsL informal with
    | [] => none
    | w :: ws =>
      let last := titleL (stripL ((w :: ws).getLast (List.cons_ne_nil w ws)))
      let first := titleL (joinSep ((w :: ws).dropLast))
      let full := if suffix ≠ [] then informal ++ ',' :: ' ' :: suffix else informal
      some ⟨String.mk full, String.mk informal, String.mk suffix,
        String.mk last, String.mk first⟩

/-- The name-parse postcondition in the specification's own words: the part
after the comma upper-cased is the suffix, the remainder is title-cased,
its last whitespace token is `last_name`, the preceding tokens joined by
single spaces are `first_name`, and `full_name` is the remainder followed
by a comma and the suffix when one is present.  Unlike `parseName`, the
extracted tokens are not re-stripped or re-title-cased. -/
def parseNameSpec (full_name : String) : Option NameParts :=
  match splitOnChar ',' full_name.data with
  | [] => none
  | before :: parts =>
    let suffix : List Char :=
      match parts with
      | [] => []
      | p1 :: _ => upperL (stripL p1)
    let informal := titleL (stripL before)
    match wordsL informal with
    | [] => none
    | w :: ws =>
      let last := (w :: ws).getLast (List.cons_ne_nil w ws)
      let first := joinSep ((w :: ws).dropLast)
      let full := if suffix ≠ [] then informal ++ ',' :: ' ' :: suffix else informal
      some ⟨String.mk full, String.mk informal, String.mk suffix,
        String.mk last, String.mk first⟩

/-! ### Donation amounts (`get_donation_amount`, lines 128-158) -/

/-- Value of a digit string. -/
def digitsToNat (l : List Char) : Nat := l.foldl (fun a c => 10 * a + (c.toNat - 48)) 0

/-- Model of Python `float(text)` restricted to decimal literals: optional
surrounding whitespace, optional sign, digits with an optional decimal
point, and an optional exponent.  The special forms `inf` / `nan` and
underscore digit separators are not modelled.  The parsed decimal value is
represented exactly as a rational. -/
def pyFloat (s : String) : Option ℚ :=
  let l := stripL s.data
  let sl : ℚ × List Char :=
    match l with
    | '+' :: r => (1, r)
    | '-' :: r => (-1, r)
    | r => (1, r)
  let mant := sl.2.takeWhile (fun c => c != 'e' && c != 'E')
  let erest := sl.2.dropWhile (fun c => c != 'e' && c != 'E')
  let intPart := mant.takeWhile (fun c => c != '.')
  let fracRest := mant.dropWhile (fun c => c != '.')
  let fracPart := match fracRest with | [] => ([] : List Char) | _ :: r => r
  let expVal : Option Int :=
    match erest with
    | [] => some 0
    | _ :: er =>
      let se : Int × List Char :=
        match er with
        | '+' :: r => (1, r)
        | '-' :: r => (-1, r)
        | r => (1, r)
      if se.2 ≠ [] ∧ se.2.all Char.isDigit then some (se.1 * (digitsToNat se.2 : Int))
      else none
  match expVal with
  | none => none
  | some e =>
    if (intPart ++ fracPart) ≠ [] ∧ intPart.all Char.isDigit ∧ fracPart.all Char.isDigit then
      some (sl.1 * ((digitsToNat intPart : ℚ) +
        (digitsToNat fracPart : ℚ) / (10 : ℚ) ^ fracPart.length) * (10 : ℚ) ^ e)
    else none

/-- `get_donation_amount` (lines 128-158) over a list of successive
inputs, each read through `safe_input` (stripped).  `some none` is the
quit directive (`return None`), `some (some a)` a parsed amount (returned
immediately, whatever its sign), and `none` means every supplied input was
non-numeric (the real loop would still be prompting). -/
def getDonationAmount : List String → Option (Option ℚ)
  | [] => none
  | s :: rest =>
    if pyLower (pyStrip s) = "q" ∨ pyLower (pyStrip s) = "quit" then some none
    else
      match pyFloat (pyStrip s) with
      | some a => some (some a)
      | none => getDonationAmount rest

/-! ### The donor store and `thank_you_entry` (lines 187-272) -/

/-- One donation, as stored in a donor's `donations` list. -/
structure Donation where
  amount : ℚ
  date : String
deriving DecidableEq

/-- A donor record, with the fields the program reads or writes, in the
order the new-donor dict literal builds them (lines 260-266). -/
structure Donor where
  created : String
  user_id : String
  donations : List Donation
  full_name : String
  informal_name : String
  suffix : String
  last_name : String
  first_name : String
deriving DecidableEq

/-- The key computed from a stored donor inside the matching loop
(line 231 with line 233): `first_name + " " + last_name`, lower-cased and
stripped. -/
def storedKey (d : Donor) : String := lowerStrip (d.first_name ++ " " ++ d.last_name)

/-- The key computed from the current donor dict (line 233):
`full_name`, lower-cased and stripped. -/
def fullKey (d : Donor) : String := lowerStrip d.full_name

/-- The matching loop of `thank_you_entry` (lines 227-236).  There is no
`break`: every donor is scanned, a later match overwrites `donor_id`, and
a match also replaces `current_donor` by the stored record, so the
comparison key for the remaining donors becomes that record's
`full_name`. -/
def findDonorAux : List Donor → Nat → String → Option Nat → Option Nat
  | [], _, _, acc => acc
  | d :: rest, i, key, acc =>
    if storedKey d = key then findDonorAux rest (i + 1) (fullKey d) (some i)
    else findDonorAux rest (i + 1) key acc

/-- Donor lookup as performed by `thank_you_entry` for a parsed name. -/
def findDonor (donors : List Donor) (p : NameParts) : Option Nat :=
  findDonorAux donors 0 (lowerStrip p.full_name) none

/-- Outcome of one pass of the `thank_you_entry` input loop. -/
inductive EntryOutcome where
  | quitMenu
  | listed
  | emptyName
  | invalidName
  | cancelled
  | pending
  | donated (is_new : Bool) (idx : Nat) (amount : ℚ)
deriving DecidableEq

/-- The donor record constructed for an unmatched name (lines 254-266):
`created` is the current UTC timestamp `now`, `user_id` the hex digest of
`full_name + now`, `donations` the single new donation, and the parsed
name parts are spread into the record. -/
def newDonor (hash : String → String) (now today : String) (p : NameParts)
    (amount : ℚ) : Donor where
  created := now
  user_id := hash (p.full_name ++ now)
  donations := [⟨amount, today⟩]
  full_name := p.full_name
  informal_name := p.informal_name
  suffix := p.suffix
  last_name := p.last_name
  first_name := p.first_name

/-- One iteration of the `while True` loop of `thank_you_entry`
(lines 200-272).  `hash` is the md5 hex digest, `now` and `today` the two
clock reads (`utcnow().isoformat()+"Z"` and `utcnow().date().isoformat()+"Z"`).
The name input passes through `safe_input` (stripped); donation amounts are
read from `amountIns`.  `none` models an uncaught exception escaping the
iteration (the `IndexError` inside `parse_name`). -/
def thankYouEntryOnce (hash : String → String) (now today : String)
    (donors : List Donor) (nameIn : String) (amountIns : List String) :
    Option (List Donor × EntryOutcome) :=
  if pyLower (pyStrip nameIn) = "q" ∨ pyLower (pyStrip nameIn) = "quit" then
    some (donors, .quitMenu)
  else if pyLower (pyStrip nameIn) = "l" ∨ pyLower (pyStrip nameIn) = "list" then
    some (donors, .listed)
  else if pyStrip nameIn = "" then
    some (donors, .emptyName)
  else
    match parseName (pyStrip nameIn) with
    | none => none
    | some p =>
      if p.first_name = "" ∨ p.last_name = "" then some (donors, .invalidName)
      else
        match getDonationAmount amountIns with
        | none => some (donors, .pending)
        | some none => some (donors, .cancelled)
        | some (some amt) =>
          match findDonor donors p with
          | some i =>
            match donors[i]? with
            | none => none
            | some d =>
              some (donors.set i
                { d with donations := d.donations ++ [⟨amt, today⟩] },
                .donated false i amt)
          | none =>
            some (donors ++ [newDonor hash now today p amt],
              .donated true donors.length amt)

/-- Repeated donation entries: one `thank_you_entry` pass per amount, all
with the same name input, each pass given a single amount input.  `none`
if any pass fails to record a donation. -/
def iterEntries (hash : String → String) (now today : String) (nameIn : String) :
    List Donor → List String → Option (List Donor)
  | donors, [] => some donors
  | donors, a :: rest =>
    match thankYouEntryOnce hash now today donors nameIn [a] with
    | some (st, .donated _ _ _) => iterEntries hash now today nameIn st rest
    | _ => none

/-! ### The report (`print_report`, lines 72-97) -/

/-- One data row of the report: list index, display name, total given,
number of gifts, average gift. -/
structure ReportRow where
  idx : Nat
  name : String
  total : ℚ
  numGifts : Nat
  avgGift : ℚ
deriving DecidableEq

/-- The accumulation loop of `print_report` (lines 88-90). -/
def donorTotal (d : Donor) : ℚ := d.donations.foldl (fun a x => a + x.amount) 0

/-- The row computation of `print_report` (lines 84-97): one row per donor
in list order; a donor with no donations makes `total / num` raise
`ZeroDivisionError`, modelled by `none` for the report. -/
def reportRowsAux : Nat → List Donor → Option (List ReportRow)
  | _, [] => some []
  | i, d :: rest =>
    if d.donations.length = 0 then none
    else
      match reportRowsAux (i + 1) rest with
      | none => none
      | some rs =>
        some ({ idx := i, name := d.full_name, total := donorTotal d,
                numGifts := d.donations.length,
                avgGift := donorTotal d / (d.donations.length : ℚ) } :: rs)

/-- All data rows of the report for a donor list. -/
def reportRows (donors : List Donor) : Option (List ReportRow) :=
  reportRowsAux 0 donors

/-- Decimal digits of a natural number. -/
def natDigits (n : Nat) : List Char := (Nat.repr n).data

/-- Comma grouping of a reversed digit string, three digits at a time. -/
def group3Aux : List Char → List Char
  | a :: b :: c :: d :: rest => a :: b :: c :: ',' :: group3Aux (d :: rest)
  | l => l

/-- Thousands separators as inserted by the `,` option of a Python format
spec. -/
def groupThousands (l : List Char) : List Char := (group3Aux l.reverse).reverse

/-- Right-justification to a minimum width (Python's default for
numbers). -/
def padLeftL (w : Nat) (l : List Char) : List Char :=
  List.replicate (w - l.length) ' ' ++ l

/-- Left-justification to a minimum width (Python's default for
strings). -/
def padRightL (w : Nat) (l : List Char) : List Char :=
  l ++ List.replicate (w - l.length) ' '

/-- Zero padding, the `05d` format spec. -/
def zeroPadL (w : Nat) (l : List Char) : List Char :=
  List.replicate (w - l.length) '0' ++ l

/-- Digits of the Python format spec `,.2f`: comma-grouped whole part and
exactly two decimals.  Whole-cent values render exactly; a tie at the
third decimal rounds half-up here, where CPython rounds the underlying
binary double. -/
def fmtMoney (q : ℚ) : List Char :=
  let n : Int := round (q * 100)
  let sign := if n < 0 then ['-'] else ([] : List Char)
  let whole := n.natAbs / 100
  let cents := n.natAbs % 100
  sign ++ groupThousands (natDigits whole) ++
    '.' :: (if cents < 10 then '0' :: natDigits cents else natDigits cents)

/-- The formatted data row printed at line 95: `05d` index, three spaces,
width-20 left-justified name, two spaces, dollar sign, width-14 `,.2f`
total, three spaces, width-9 `.0f` gift count, two spaces, dollar sign,
width-12 `,.2f` average. -/
def renderRow (r : ReportRow) : String :=
  String.mk (zeroPadL 5 (natDigits r.idx) ++ [' ', ' ', ' '] ++
    padRightL 20 r.name.data ++ [' ', ' ', '$'] ++
    padLeftL 14 (fmtMoney r.total) ++ [' ', ' ', ' '] ++
    padLeftL 9 (natDigits r.numGifts) ++ [' ', ' ', '$'] ++
    padLeftL 12 (fmtMoney r.avgGift))

/-! ### Concrete sample data

Two stored donor records used to instantiate the theorems below at
concrete inputs.  Both carry the canonical parts of the name
"John Smith"; they differ in identity fields and donations. -/

/-- A stored donor "John Smith" with one donation of 100. -/
def johnSmith : Donor :=
  ⟨"T0", "U0", [⟨100, "D0"⟩], "John Smith", "John Smith", "", "Smith", "John"⟩

/-- A second stored donor, same normalised name as `johnSmith`. -/
def johnSmith2 : Donor :=
  ⟨"T2", "U2", [⟨7, "D2"⟩], "John Smith", "John Smith", "", "Smith", "John"⟩

/-- A stored donor "Jane Doe" with donations 10.00 and 20.50. -/
def janeDoe : Donor :=
  ⟨"T3", "U3", [⟨10, "a"⟩, ⟨41/2, "b"⟩], "Jane Doe", "Jane Doe", "", "Doe", "Jane"⟩

/-! ### Lemmas about the string operations -/

/-! #### Character-level facts

`Char.toUpper` and `Char.toLower` in core Lean are exactly the ASCII case
maps used by Python on ASCII characters; the lemmas characterise them
through `Char.toNat`. -/

theorem toNat_ofNat_valid {n : Nat} (h : n < 55296) : (Char.ofNat n).toNat = n := by
  unfold Char.ofNat
  rw [dif_pos (Or.inl h)]
  simp [Char.ofNatAux, Char.toNat, UInt32.ofNat', UInt32.toNat]

theorem toNat_toUpper (c : Char) :
    (Char.toUpper c).toNat =
      if 97 ≤ c.toNat ∧ c.toNat ≤ 122 then c.toNat - 32 else c.toNat := by
  unfold Char.toUpper
  split
  · rename_i h
    rw [if_pos h]
    exact toNat_ofNat_valid (by omega)
  · rename_i h
    rw [if_neg h]

theorem toNat_toLower (c : Char) :
    (Char.toLower c).toNat =
      if 65 ≤ c.toNat ∧ c.toNat ≤ 90 then c.toNat + 32 else c.toNat := by
  unfold Char.toLower
  split
  · rename_i h
    rw [if_pos h]
    exact toNat_ofNat_valid (by omega)
  · rename_i h
    rw [if_neg h]

theorem toNat_inj {a b : Char} (h : a.toNat = b.toNat) : a = b := by
  calc a = Char.ofNat a.toNat := (Char.ofNat_toNat a).symm
  _ = Char.ofNat b.toNat := by rw [h]
  _ = b := Char.ofNat_toNat b

theorem toUpper_eq_self {c : Char} (h : ¬ (97 ≤ c.toNat ∧ c.toNat ≤ 122)) :
    Char.toUpper c = c := if_neg h

theorem toLower_eq_self {c : Char} (h : ¬ (65 ≤ c.toNat ∧ c.toNat ≤ 90)) :
    Char.toLower c = c := if_neg h

theorem toUpper_toUpper (c : Char) : Char.toUpper (Char.toUpper c) = Char.toUpper c := by
  by_cases h : 97 ≤ c.toNat ∧ c.toNat ≤ 122
  · have h2 : (Char.toUpper c).toNat = c.toNat - 32 := by rw [toNat_toUpper, if_pos h]
    exact toUpper_eq_self (by omega)
  · simp only [toUpper_eq_self h]

theorem toLower_toLower (c : Char) : Char.toLower (Char.toLower c) = Char.toLower c := by
  by_cases h : 65 ≤ c.toNat ∧ c.toNat ≤ 90
  · have h2 : (Char.toLower c).toNat = c.toNat + 32 := by rw [toNat_toLower, if_pos h]
    exact toLower_eq_self (by omega)
  · simp only [toLower_eq_self h]

theorem isAlpha_iff_toNat (c : Char) :
    c.isAlpha = true ↔
      (65 ≤ c.toNat ∧ c.toNat ≤ 90) ∨ (97 ≤ c.toNat ∧ c.toNat ≤ 122) := by
  simp [Char.isAlpha, Char.isUpper, Char.isLower, Char.toNat, UInt32.le_def,
    UInt32.toNat, BitVec.le_def]

theorem isWhitespace_iff_toNat (c : Char) :
    c.isWhitespace = true ↔
      c.toNat = 32 ∨ c.toNat = 9 ∨ c.toNat = 13 ∨ c.toNat = 10 := by
  constructor
  · intro h
    simp [Char.isWhitespace] at h
    rcases h with ((h | h) | h) | h <;> subst h <;> decide
  · intro h
    have hv : c = ' ' ∨ c = '\t' ∨ c = '\r' ∨ c = '\n' := by
      rcases h with h | h | h | h
      · exact Or.inl (toNat_inj (by rw [h]; decide))
      · exact Or.inr (Or.inl (toNat_inj (by rw [h]; decide)))
      · exact Or.inr (Or.inr (Or.inl (toNat_inj (by rw [h]; decide))))
      · exact Or.inr (Or.inr (Or.inr (toNat_inj (by rw [h]; decide))))
    rcases hv with h | h | h | h <;> subst h <;> decide

theorem isAlpha_toUpper (c : Char) : (Char.toUpper c).isAlpha = c.isAlpha := by
  by_cases h : (65 ≤ c.toNat ∧ c.toNat ≤ 90) ∨ (97 ≤ c.toNat ∧ c.toNat ≤ 122)
  · have h1 : c.isAlpha = true := (isAlpha_iff_toNat c).mpr h
    have h2 : (Char.toUpper c).isAlpha = true := by
      rw [isAlpha_iff_toNat, toNat_toUpper]
      split <;> omega
    rw [h1, h2]
  · have h1 : ¬ c.isAlpha = true := fun hc => h ((isAlpha_iff_toNat c).mp hc)
    have h2 : ¬ (Char.toUpper c).isAlpha = true := by
      intro hc
      rw [isAlpha_iff_toNat, toNat_toUpper] at hc
      revert hc
      split <;> intro hc <;> exact h (by omega)
    simp only [Bool.not_eq_true] at h1 h2
    rw [h1, h2]

theorem isAlpha_toLower (c : Char) : (Char.toLower c).isAlpha = c.isAlpha := by
  by_cases h : (65 ≤ c.toNat ∧ c.toNat ≤ 90) ∨ (97 ≤ c.toNat ∧ c.toNat ≤ 122)
  · have h1 : c.isAlpha = true := (isAlpha_iff_toNat c).mpr h
    have h2 : (Char.toLower c).isAlpha = true := by
      rw [isAlpha_iff_toNat, toNat_toLower]
      split <;> omega
    rw [h1, h2]
  · have h1 : ¬ c.isAlpha = true := fun hc => h ((isAlpha_iff_toNat c).mp hc)
    have h2 : ¬ (Char.toLower c).isAlpha = true := by
      intro hc
      rw [isAlpha_iff_toNat, toNat_toLower] at hc
      revert hc
      split <;> intro hc <;> exact h (by omega)
    simp only [Bool.not_eq_true] at h1 h2
    rw [h1, h2]

theorem isWhitespace_toUpper (c : Char) :
    (Char.toUpper c).isWhitespace = c.isWhitespace := by
  by_cases h : 97 ≤ c.toNat ∧ c.toNat ≤ 122
  · have h2 : (Char.toUpper c).toNat = c.toNat - 32 := by rw [toNat_toUpper, if_pos h]
    have h3 : ¬ (Char.toUpper c).isWhitespace = true := by
      rw [isWhitespace_iff_toNat]; omega
    have h4 : ¬ c.isWhitespace = true := by
      rw [isWhitespace_iff_toNat]; omega
    simp only [Bool.not_eq_true] at h3 h4
    rw [h3, h4]
  · simp only [toUpper_eq_self h]

theorem isWhitespace_toLower (c : Char) :
    (Char.toLower c).isWhitespace = c.isWhitespace := by
  by_cases h : 65 ≤ c.toNat ∧ c.toNat ≤ 90
  · have h2 : (Char.toLower c).toNat = c.toNat + 32 := by rw [toNat_toLower, if_pos h]
    have h3 : ¬ (Char.toLower c).isWhitespace = true := by
      rw [isWhitespace_iff_toNat]; omega
    have h4 : ¬ c.isWhitespace = true := by
      rw [isWhitespace_iff_toNat]; omega
    simp only [Bool.not_eq_true] at h3 h4
    rw [h3, h4]
  · simp only [toLower_eq_self h]

theorem toNat_comma : (',' : Char).toNat = 44 := by decide

theorem ne_comma_toUpper (c : Char) (h : c ≠ ',') : Char.toUpper c ≠ ',' := by
  intro hc
  by_cases hl : 97 ≤ c.toNat ∧ c.toNat ≤ 122
  · have h2 : (Char.toUpper c).toNat = c.toNat - 32 := by rw [toNat_toUpper, if_pos hl]
    rw [hc, toNat_comma] at h2
    omega
  · rw [toUpper_eq_self hl] at hc
    exact h hc

theorem ws_not_alpha {c : Char} (h : c.isWhitespace = true) : c.isAlpha = false := by
  rw [isWhitespace_iff_toNat] at h
  by_contra hc
  simp only [Bool.not_eq_false] at hc
  rw [isAlpha_iff_toNat] at hc
  omega

theorem alpha_ne_comma {c : Char} (h : c.isAlpha = true) : c ≠ ',' := by
  intro hc
  subst hc
  simp [Char.isAlpha, Char.isUpper, Char.isLower] at h

theorem dropWhile_fix_head {p : Char → Bool} {c : Char} {t : List Char}
    (h : (c :: t).dropWhile p = c :: t) : p c = false := by
  by_contra hc
  simp only [Bool.not_eq_false] at hc
  rw [List.dropWhile_cons_of_pos hc] at h
  have h1 := congrArg List.length h
  have h2 := (List.dropWhile_sublist (l := t) p).length_le
  simp only [List.length_cons] at h1
  omega

theorem rdropWs_cons_eq (c : Char) (t : List Char) :
    rdropWs (c :: t) =
      match rdropWs t with
      | [] => if c.isWhitespace then [] else [c]
      | d :: r => c :: d :: r := rfl

theorem rdropWs_length_le (l : List Char) : (rdropWs l).length ≤ l.length := by
  induction l with
  | nil => simp [rdropWs]
  | cons c t ih =>
    rw [rdropWs_cons_eq]
    cases h : rdropWs t with
    | nil =>
      show (if c.isWhitespace then [] else [c]).length ≤ (c :: t).length
      split <;> simp
    | cons d r =>
      rw [h] at ih
      show (c :: d :: r).length ≤ (c :: t).length
      simp only [List.length_cons] at ih ⊢
      omega

theorem rdropWs_shape (c : Char) (t : List Char) :
    rdropWs (c :: t) = [] ∨ ∃ r, rdropWs (c :: t) = c :: r := by
  rw [rdropWs_cons_eq]
  cases h : rdropWs t with
  | nil =>
    by_cases hc : c.isWhitespace
    · exact Or.inl (if_pos hc)
    · exact Or.inr ⟨[], if_neg hc⟩
  | cons d r => exact Or.inr ⟨d :: r, rfl⟩

theorem rdropWs_idem (l : List Char) : rdropWs (rdropWs l) = rdropWs l := by
  induction l with
  | nil => rfl
  | cons c t ih =>
    rw [rdropWs_cons_eq]
    cases h : rdropWs t with
    | nil =>
      by_cases hc : c.isWhitespace
      · show rdropWs (if c.isWhitespace then [] else [c]) =
          (if c.isWhitespace then [] else [c])
        rw [if_pos hc]
        rfl
      · show rdropWs (if c.isWhitespace then [] else [c]) =
          (if c.isWhitespace then [] else [c])
        rw [if_neg hc]
        show (if c.isWhitespace then [] else [c]) = [c]
        rw [if_neg hc]
    | cons d r =>
      rw [h] at ih
      show rdropWs (c :: d :: r) = c :: d :: r
      rw [rdropWs_cons_eq, ih]

theorem dropWhile_ws_rdropWs_fix {m : List Char}
    (h : m.dropWhile Char.isWhitespace = m) :
    (rdropWs m).dropWhile Char.isWhitespace = rdropWs m := by
  match m with
  | [] => rfl
  | c :: t =>
    have hc : c.isWhitespace = false := dropWhile_fix_head h
    rcases rdropWs_shape c t with h2 | ⟨r, h2⟩
    · rw [h2]; rfl
    · rw [h2]
      exact List.dropWhile_cons_of_neg (by simp [hc])

theorem dropWhile_head_false {p : Char → Bool} :
    ∀ {l : List Char} {c : Char} {t : List Char}, l.dropWhile p = c :: t → p c = false := by
  intro l
  induction l with
  | nil => intro c t h; simp at h
  | cons a l' ih =>
    intro c t h
    by_cases ha : p a = true
    · rw [List.dropWhile_cons_of_pos ha] at h
      exact ih h
    · simp only [Bool.not_eq_true] at ha
      rw [List.dropWhile_cons_of_neg (by simp [ha])] at h
      cases h
      exact ha

theorem dropWhile_ws_idem (l : List Char) :
    (l.dropWhile Char.isWhitespace).dropWhile Char.isWhitespace =
      l.dropWhile Char.isWhitespace := by
  match h : l.dropWhile Char.isWhitespace with
  | [] => rfl
  | c :: t =>
    exact List.dropWhile_cons_of_neg (by simp [dropWhile_head_false h])

theorem stripL_idem (l : List Char) : stripL (stripL l) = stripL l := by
  unfold stripL
  rw [dropWhile_ws_rdropWs_fix (dropWhile_ws_idem l)]
  exact rdropWs_idem _

theorem stripL_fix_parts {l : List Char} (h : stripL l = l) :
    l.dropWhile Char.isWhitespace = l ∧ rdropWs l = l := by
  have hm : l.dropWhile Char.isWhitespace = l := by
    have h1 := rdropWs_length_le (l.dropWhile Char.isWhitespace)
    have h2 := (List.dropWhile_sublist (l := l) Char.isWhitespace).length_le
    have h3 : (stripL l).length = l.length := by rw [h]
    unfold stripL at h3
    exact (List.dropWhile_sublist Char.isWhitespace).eq_of_length (by omega)
  constructor
  · exact hm
  · have : stripL l = rdropWs l := by unfold stripL; rw [hm]
    rw [← this, h]

theorem rdropWs_map {g : Char → Char} (hg : ∀ c, (g c).isWhitespace = c.isWhitespace) :
    ∀ l : List Char, rdropWs (l.map g) = (rdropWs l).map g := by
  intro l
  induction l with
  | nil => rfl
  | cons c t ih =>
    rw [List.map_cons, rdropWs_cons_eq, rdropWs_cons_eq, ih]
    cases h : rdropWs t with
    | nil =>
      show (if (g c).isWhitespace then [] else [g c]) =
        List.map g (if c.isWhitespace then [] else [c])
      rw [hg c]
      by_cases hc : c.isWhitespace
      · rw [if_pos hc, if_pos hc]
        rfl
      · rw [if_neg hc, if_neg hc]
        rfl
    | cons d r => rfl

theorem stripL_map {g : Char → Char} (hg : ∀ c, (g c).isWhitespace = c.isWhitespace)
    (l : List Char) : stripL (l.map g) = (stripL l).map g := by
  unfold stripL
  have hfun : (Char.isWhitespace ∘ g) = Char.isWhitespace := funext hg
  rw [List.dropWhile_map, hfun, rdropWs_map hg]

theorem upperL_stripL (l : List Char) : stripL (upperL l) = upperL (stripL l) :=
  stripL_map isWhitespace_toUpper l

theorem lowerL_stripL (l : List Char) : stripL (lowerL l) = lowerL (stripL l) :=
  stripL_map isWhitespace_toLower l

theorem upperL_idem (l : List Char) : upperL (upperL l) = upperL l := by
  unfold upperL
  rw [List.map_map]
  exact List.map_congr_left (fun c _ => toUpper_toUpper c)

/-! ### Lemmas about `titleAux` -/

theorem titleAux_cons (b : Bool) (c : Char) (t : List Char) :
    titleAux b (c :: t) = titleChar b c :: titleAux c.isAlpha t := rfl

theorem titleChar_false_alpha {c : Char} (h : c.isAlpha = true) :
    titleChar false c = Char.toUpper c := by
  simp [titleChar, h]

theorem titleChar_true_alpha {c : Char} (h : c.isAlpha = true) :
    titleChar true c = Char.toLower c := by
  simp [titleChar, h]

theorem titleChar_not_alpha {c : Char} (b : Bool) (h : c.isAlpha = false) :
    titleChar b c = c := by
  simp [titleChar, h]

theorem titleChar_isAlpha (b : Bool) (c : Char) : (titleChar b c).isAlpha = c.isAlpha := by
  by_cases h : c.isAlpha = true
  · cases b
    · rw [titleChar_false_alpha h, isAlpha_toUpper]
    · rw [titleChar_true_alpha h, isAlpha_toLower]
  · simp only [Bool.not_eq_true] at h
    rw [titleChar_not_alpha b h]

theorem titleChar_isWhitespace (b : Bool) (c : Char) :
    (titleChar b c).isWhitespace = c.isWhitespace := by
  by_cases h : c.isAlpha = true
  · cases b
    · rw [titleChar_false_alpha h, isWhitespace_toUpper]
    · rw [titleChar_true_alpha h, isWhitespace_toLower]
  · simp only [Bool.not_eq_true] at h
    rw [titleChar_not_alpha b h]

theorem titleChar_titleChar (b : Bool) (c : Char) :
    titleChar b (titleChar b c) = titleChar b c := by
  by_cases h : c.isAlpha = true
  · cases b
    · rw [titleChar_false_alpha h,
        titleChar_false_alpha (by rw [isAlpha_toUpper]; exact h)]
      exact toUpper_toUpper c
    · rw [titleChar_true_alpha h,
        titleChar_true_alpha (by rw [isAlpha_toLower]; exact h)]
      exact toLower_toLower c
  · simp only [Bool.not_eq_true] at h
    rw [titleChar_not_alpha b h, titleChar_not_alpha b h]

theorem titleChar_ne_comma {c : Char} (b : Bool) (h : c ≠ ',') : titleChar b c ≠ ',' := by
  by_cases ha : c.isAlpha = true
  · cases b
    · rw [titleChar_false_alpha ha]
      exact alpha_ne_comma (by rw [isAlpha_toUpper]; exact ha)
    · rw [titleChar_true_alpha ha]
      exact alpha_ne_comma (by rw [isAlpha_toLower]; exact ha)
  · simp only [Bool.not_eq_true] at ha
    rw [titleChar_not_alpha b ha]
    exact h

theorem titleAux_idem : ∀ (l : List Char) (b : Bool),
    titleAux b (titleAux b l) = titleAux b l := by
  intro l
  induction l with
  | nil => intro b; rfl
  | cons c t ih =>
    intro b
    rw [titleAux_cons, titleAux_cons, titleChar_titleChar, titleChar_isAlpha, ih]

theorem titleAux_no_ws {l : List Char} (b : Bool)
    (h : ∀ c ∈ l, c.isWhitespace = false) :
    ∀ c ∈ titleAux b l, c.isWhitespace = false := by
  induction l generalizing b with
  | nil => intro c hc; simp [titleAux] at hc
  | cons a t ih =>
    intro c hc
    rw [titleAux_cons] at hc
    rcases List.mem_cons.mp hc with h1 | h1
    · subst h1
      rw [titleChar_isWhitespace]
      exact h a (List.mem_cons_self a t)
    · exact ih _ (fun d hd => h d (List.mem_cons_of_mem a hd)) c h1

theorem titleAux_ne_comma {l : List Char} (b : Bool)
    (h : ∀ c ∈ l, c ≠ ',') :
    ∀ c ∈ titleAux b l, c ≠ ',' := by
  induction l generalizing b with
  | nil => intro c hc; simp [titleAux] at hc
  | cons a t ih =>
    intro c hc
    rw [titleAux_cons] at hc
    rcases List.mem_cons.mp hc with h1 | h1
    · subst h1
      exact titleChar_ne_comma b (h a (List.mem_cons_self a t))
    · exact ih _ (fun d hd => h d (List.mem_cons_of_mem a hd)) c h1

theorem dropWhile_ws_titleAux_fix {l : List Char} (b : Bool)
    (h : l.dropWhile Char.isWhitespace = l) :
    (titleAux b l).dropWhile Char.isWhitespace = titleAux b l := by
  cases l with
  | nil => rfl
  | cons c t =>
    have hc : c.isWhitespace = false := dropWhile_fix_head h
    rw [titleAux_cons]
    exact List.dropWhile_cons_of_neg (by simp [titleChar_isWhitespace, hc])

theorem rdropWs_titleAux_fix : ∀ {l : List Char} (b : Bool), rdropWs l = l →
    rdropWs (titleAux b l) = titleAux b l := by
  intro l
  induction l with
  | nil => intro b _; rfl
  | cons c t ih =>
    intro b h
    rw [rdropWs_cons_eq] at h
    rw [titleAux_cons]
    cases ht : rdropWs t with
    | nil =>
      rw [ht] at h
      by_cases hc : c.isWhitespace
      · rw [if_pos hc] at h
        exact absurd h (by simp)
      · rw [if_neg hc] at h
        have ht0 : t = [] := by
          have h2 := congrArg List.length h
          simp only [List.length_cons, List.length_nil] at h2
          exact List.length_eq_zero.mp (by omega)
        subst ht0
        show rdropWs [titleChar b c] = [titleChar b c]
        rw [rdropWs_cons_eq]
        show (if (titleChar b c).isWhitespace then [] else [titleChar b c]) = _
        rw [titleChar_isWhitespace]
        exact if_neg hc
    | cons d r =>
      rw [ht] at h
      have htf : rdropWs t = t := by
        cases h
        exact ht
      have hT := ih c.isAlpha htf
      rw [rdropWs_cons_eq, hT]
      cases hTT : titleAux c.isAlpha t with
      | nil =>
        have ht0 : t = [] := by
          cases t
          · rfl
          · exact absurd hTT (by rw [titleAux_cons]; simp)
        subst ht0
        exact absurd ht (by simp [rdropWs])
      | cons e s => rfl

theorem stripL_titleAux_fix {l : List Char} (b : Bool) (h : stripL l = l) :
    stripL (titleAux b l) = titleAux b l := by
  rcases stripL_fix_parts h with ⟨h1, h2⟩
  unfold stripL
  rw [dropWhile_ws_titleAux_fix b h1]
  exact rdropWs_titleAux_fix b h2

/-! ### Lemmas about `splitOnChar` -/

theorem splitOnCharAux_cons_eq (sep c : Char) (t : List Char) :
    splitOnCharAux sep (c :: t) =
      if c = sep then ([], (splitOnCharAux sep t).1 :: (splitOnCharAux sep t).2)
      else (c :: (splitOnCharAux sep t).1, (splitOnCharAux sep t).2) := rfl

theorem splitOnChar_ne_nil (sep : Char) (l : List Char) : splitOnChar sep l ≠ [] := by
  simp [splitOnChar]

theorem splitOnCharAux_no_sep {sep : Char} :
    ∀ {l : List Char}, (∀ c ∈ l, c ≠ sep) → splitOnCharAux sep l = (l, []) := by
  intro l
  induction l with
  | nil => intro _; rfl
  | cons c t ih =>
    intro h
    rw [splitOnCharAux_cons_eq, if_neg (h c (List.mem_cons_self c t)),
      ih (fun d hd => h d (List.mem_cons_of_mem c hd))]

theorem splitOnChar_no_sep {sep : Char} {l : List Char}
    (h : ∀ c ∈ l, c ≠ sep) : splitOnChar sep l = [l] := by
  unfold splitOnChar
  rw [splitOnCharAux_no_sep h]

theorem splitOnCharAux_append {sep : Char} {b : List Char} :
    ∀ {a : List Char}, (∀ c ∈ a, c ≠ sep) →
      splitOnCharAux sep (a ++ sep :: b) =
        (a, (splitOnCharAux sep b).1 :: (splitOnCharAux sep b).2) := by
  intro a
  induction a with
  | nil =>
    intro _
    rw [List.nil_append, splitOnCharAux_cons_eq, if_pos rfl]
  | cons x a' ih =>
    intro h
    rw [List.cons_append, splitOnCharAux_cons_eq,
      if_neg (h x (List.mem_cons_self x a')),
      ih (fun d hd => h d (List.mem_cons_of_mem x hd))]

theorem splitOnChar_append {sep : Char} {b : List Char} {a : List Char}
    (h : ∀ c ∈ a, c ≠ sep) :
    splitOnChar sep (a ++ sep :: b) = a :: splitOnChar sep b := by
  unfold splitOnChar
  rw [splitOnCharAux_append h]

theorem splitOnCharAux_no_sep_inside (sep : Char) :
    ∀ (l : List Char),
      (∀ c ∈ (splitOnCharAux sep l).1, c ≠ sep) ∧
      (∀ w ∈ (splitOnCharAux sep l).2, ∀ c ∈ w, c ≠ sep) := by
  intro l
  induction l with
  | nil => exact ⟨by simp [splitOnCharAux], by simp [splitOnCharAux]⟩
  | cons a t ih =>
    rw [splitOnCharAux_cons_eq]
    by_cases ha : a = sep
    · rw [if_pos ha]
      refine ⟨by simp, ?_⟩
      intro w hw c hc
      rcases List.mem_cons.mp hw with h1 | h1
      · subst h1
        exact ih.1 c hc
      · exact ih.2 w h1 c hc
    · rw [if_neg ha]
      refine ⟨?_, ih.2⟩
      intro c hc
      rcases List.mem_cons.mp hc with h1 | h1
      · subst h1
        exact ha
      · exact ih.1 c h1

theorem splitOnChar_pieces_no_sep (sep : Char) (l : List Char) :
    ∀ w ∈ splitOnChar sep l, ∀ c ∈ w, c ≠ sep := by
  intro w hw
  unfold splitOnChar at hw
  rcases List.mem_cons.mp hw with h1 | h1
  · subst h1
    exact (splitOnCharAux_no_sep_inside sep l).1
  · exact (splitOnCharAux_no_sep_inside sep l).2 w h1

theorem splitOnCharAux_fst_takeWhile (sep : Char) :
    ∀ (l : List Char),
      (splitOnCharAux sep l).1 = l.takeWhile (fun c => c != sep) := by
  intro l
  induction l with
  | nil => rfl
  | cons c t ih =>
    rw [splitOnCharAux_cons_eq]
    by_cases hc : c = sep
    · rw [if_pos hc, List.takeWhile_cons_of_neg (by simp [hc])]
    · rw [if_neg hc, List.takeWhile_cons_of_pos (by simp [hc]), ih]

/-! ### Membership helpers -/

theorem mem_rdropWs : ∀ {l : List Char} {c : Char}, c ∈ rdropWs l → c ∈ l := by
  intro l
  induction l with
  | nil => intro c h; simp [rdropWs] at h
  | cons a t ih =>
    intro c h
    rw [rdropWs_cons_eq] at h
    cases ht : rdropWs t with
    | nil =>
      rw [ht] at h
      by_cases ha : a.isWhitespace
      · rw [if_pos ha] at h
        simp at h
      · rw [if_neg ha] at h
        simp at h
        subst h
        exact List.mem_cons_self c t
    | cons d r =>
      rw [ht] at h
      rcases List.mem_cons.mp h with h1 | h1
      · subst h1
        exact List.mem_cons_self c t
      · exact List.mem_cons_of_mem a (ih (by rw [ht]; exact h1))

theorem mem_stripL {l : List Char} {c : Char} (h : c ∈ stripL l) : c ∈ l :=
  List.dropWhile_subset Char.isWhitespace (mem_rdropWs h)

theorem upperL_ne_comma {l : List Char} (h : ∀ c ∈ l, c ≠ ',') :
    ∀ c ∈ upperL l, c ≠ ',' := by
  intro c hc
  rcases List.mem_map.mp hc with ⟨d, hd, hdc⟩
  subst hdc
  exact ne_comma_toUpper d (h d hd)

/-! ### `titleAux` over concatenations and words -/

/-- The previous-character flag after `titleAux` has consumed `l`,
starting from `b`. -/
def flagAfter (b : Bool) (l : List Char) : Bool :=
  l.foldl (fun _ c => c.isAlpha) b

theorem flagAfter_cons (b : Bool) (c : Char) (t : List Char) :
    flagAfter b (c :: t) = flagAfter c.isAlpha t := rfl

theorem titleAux_append (y : List Char) :
    ∀ (x : List Char) (b : Bool),
      titleAux b (x ++ y) = titleAux b x ++ titleAux (flagAfter b x) y := by
  intro x
  induction x with
  | nil => intro b; rfl
  | cons c t ih =>
    intro b
    rw [List.cons_append, titleAux_cons, titleAux_cons, ih, flagAfter_cons]
    rfl

theorem splitWsAux_cons_eq (c : Char) (t : List Char) :
    splitWsAux (c :: t) =
      if c.isWhitespace then ([], (splitWsAux t).1 :: (splitWsAux t).2)
      else (c :: (splitWsAux t).1, (splitWsAux t).2) := rfl

theorem splitWsAux_no_ws_inside :
    ∀ (l : List Char),
      (∀ c ∈ (splitWsAux l).1, c.isWhitespace = false) ∧
      (∀ w ∈ (splitWsAux l).2, ∀ c ∈ w, c.isWhitespace = false) := by
  intro l
  induction l with
  | nil => exact ⟨by simp [splitWsAux], by simp [splitWsAux]⟩
  | cons a t ih =>
    rw [splitWsAux_cons_eq]
    by_cases ha : a.isWhitespace
    · rw [if_pos ha]
      refine ⟨by simp, ?_⟩
      intro w hw c hc
      rcases List.mem_cons.mp hw with h1 | h1
      · subst h1
        exact ih.1 c hc
      · exact ih.2 w h1 c hc
    · rw [if_neg ha]
      refine ⟨?_, ih.2⟩
      intro c hc
      rcases List.mem_cons.mp hc with h1 | h1
      · subst h1
        simp only [Bool.not_eq_true] at ha
        exact ha
      · exact ih.1 c h1

theorem wordsL_mem_no_ws (l : List Char) :
    ∀ w ∈ wordsL l, w ≠ [] ∧ ∀ c ∈ w, c.isWhitespace = false := by
  intro w hw
  unfold wordsL at hw
  have h1 := List.of_mem_filter hw
  have h2 := List.mem_of_mem_filter hw
  constructor
  · intro he
    subst he
    simp at h1
  · intro c hc
    rcases List.mem_cons.mp h2 with h3 | h3
    · subst h3
      exact (splitWsAux_no_ws_inside l).1 c hc
    · exact (splitWsAux_no_ws_inside l).2 w h3 c hc

theorem titleAux_isEmpty (b : Bool) (w : List Char) :
    (titleAux b w).isEmpty = w.isEmpty := by
  cases w with
  | nil => rfl
  | cons c t => rfl

theorem splitWsAux_titleAux :
    ∀ (l : List Char) (b : Bool),
      splitWsAux (titleAux b l) =
        (titleAux b (splitWsAux l).1,
          (splitWsAux l).2.map (titleAux false)) := by
  intro l
  induction l with
  | nil => intro b; rfl
  | cons c t ih =>
    intro b
    rw [titleAux_cons, splitWsAux_cons_eq, splitWsAux_cons_eq,
      titleChar_isWhitespace]
    by_cases hc : c.isWhitespace
    · rw [if_pos hc, if_pos hc]
      have hca : c.isAlpha = false := ws_not_alpha (by simp [hc])
      rw [hca, ih false]
      rfl
    · rw [if_neg hc, if_neg hc, ih c.isAlpha]
      rfl

theorem wordsL_titleAux (l : List Char) :
    wordsL (titleAux false l) = (wordsL l).map (titleAux false) := by
  unfold wordsL
  rw [splitWsAux_titleAux l false]
  show List.filter _ (List.map (titleAux false) ((splitWsAux l).1 :: (splitWsAux l).2)) = _
  rw [List.filter_map]
  have : ((fun w => !w.isEmpty) ∘ titleAux false) = (fun w : List Char => !w.isEmpty) := by
    funext w
    simp [Function.comp, titleAux_isEmpty]
  rw [this]

theorem wordsL_ne_nil_of_head_not_ws {c : Char} (t : List Char)
    (hc : c.isWhitespace = false) : wordsL (c :: t) ≠ [] := by
  unfold wordsL
  rw [splitWsAux_cons_eq, if_neg (by simp [hc])]
  rw [List.filter_cons_of_pos (by simp)]
  simp

theorem joinSep_titleAux_fix :
    ∀ (pieces : List (List Char)),
      (∀ w ∈ pieces, titleAux false w = w) →
      titleAux false (joinSep pieces) = joinSep pieces := by
  intro pieces
  induction pieces with
  | nil => intro _; rfl
  | cons w rest ih =>
    intro h
    cases rest with
    | nil =>
      show titleAux false w = w
      exact h w (List.mem_cons_self w [])
    | cons v ws' =>
      show titleAux false (w ++ ' ' :: joinSep (v :: ws')) = w ++ ' ' :: joinSep (v :: ws')
      rw [titleAux_append, titleAux_cons,
        titleChar_not_alpha _ (by decide)]
      have hsp : (' ' : Char).isAlpha = false := by decide
      rw [hsp]
      rw [h w (List.mem_cons_self w _),
        ih (fun u hu => h u (List.mem_cons_of_mem w hu))]

theorem stripL_of_no_ws {w : List Char} (h : ∀ c ∈ w, c.isWhitespace = false) :
    stripL w = w := by
  have hdw : w.dropWhile Char.isWhitespace = w := by
    cases w with
    | nil => rfl
    | cons c t =>
      exact List.dropWhile_cons_of_neg
        (by simp [h c (List.mem_cons_self c t)])
  have hrd : rdropWs w = w := by
    clear hdw
    induction w with
    | nil => rfl
    | cons c t ih =>
      rw [rdropWs_cons_eq, ih (fun d hd => h d (List.mem_cons_of_mem c hd))]
      cases t with
      | nil =>
        show (if c.isWhitespace then [] else [c]) = [c]
        rw [if_neg (by simp [h c (List.mem_cons_self c [])])]
      | cons d r => rfl
  unfold stripL
  rw [hdw, hrd]

/-! ### Theorems about the claims -/

/-- C1, counterexample: re-entering an already-stored donor's name with a
suffix does not resolve to the existing donor.  With "John Smith" stored,
entering "John Smith, Jr" and a valid amount creates a second record whose
normalised "first last" key equals the stored one, so the store now holds
two donor records for the same normalised full name. -/
theorem C1_counterexample :
    thankYouEntryOnce (fun _ => "H") "T1" "D1" [johnSmith] "John Smith, Jr" ["50"] =
      some ([johnSmith,
        ⟨"T1", "H", [⟨50, "D1"⟩], "John Smith, JR", "John Smith", "JR", "Smith", "John"⟩],
        .donated true 1 50) ∧
    storedKey johnSmith =
      storedKey ⟨"T1", "H", [⟨50, "D1"⟩], "John Smith, JR", "John Smith", "JR", "Smith", "John"⟩ := by
  with_unfolding_all decide

/-- C2, counterexample: the amount prompt accepts non-positive numbers.
Entering "-5" at the amount prompt returns -5 at once and the flow records
a donation of -5, although -5 is negative; so recorded amounts are not
always strictly positive. -/
theorem C2_counterexample :
    getDonationAmount ["-5"] = some (some (-5)) ∧
    thankYouEntryOnce (fun _ => "H") "T1" "D1" [] "Jane Doe" ["-5"] =
      some ([⟨"T1", "H", [⟨-5, "D1"⟩], "Jane Doe", "Jane Doe", "", "Doe", "Jane"⟩],
        .donated true 0 (-5)) ∧
    (-5 : ℚ) < 0 := by
  with_unfolding_all decide

/-- C3, counterexample: a non-empty name whose part before the comma is
empty crashes name parsing.  For the input ", Jr", `parse_name` evaluates
`informal_name.split()[-1]` on an empty list and raises an uncaught
`IndexError` (modelled by `none`), so the entry flow raises instead of
re-prompting. -/
theorem C3_counterexample :
    (", Jr" : String) ≠ "" ∧
    parseName ", Jr" = none ∧
    thankYouEntryOnce (fun _ => "H") "T1" "D1" [] ", Jr" ["5"] = none := by
  with_unfolding_all decide

/-- C8, counterexample: when two stored donors both match the candidate,
the scan returns the last matching index, not the first.  With two stored
"John Smith" records, entering "John Smith" mutates the donor at index 1,
not index 0. -/
theorem C8_counterexample :
    storedKey johnSmith = lowerStrip "John Smith" ∧
    storedKey johnSmith2 = lowerStrip "John Smith" ∧
    findDonor [johnSmith, johnSmith2]
      ⟨"John Smith", "John Smith", "", "Smith", "John"⟩ = some 1 ∧
    thankYouEntryOnce (fun _ => "H") "T1" "D1" [johnSmith, johnSmith2]
      "John Smith" ["50"] =
      some ([johnSmith,
        { johnSmith2 with donations := johnSmith2.donations ++ [⟨50, "D1"⟩] }],
        .donated false 1 50) := by
  with_unfolding_all decide

/-- C6: cancel atomicity.  Entering "q" or "quit" (case-insensitively, as
normalised by `safe_input` and `.lower()`) at the amount prompt makes
`get_donation_amount` return the cancel marker, and whenever the amount
prompt cancels, one pass of `thank_you_entry` leaves the donor store
exactly unchanged: no donor record is created and no donation appended. -/
theorem C6_cancel_atomicity :
    (∀ (s : String) (rest : List String),
      pyLower (pyStrip s) = "q" ∨ pyLower (pyStrip s) = "quit" →
      getDonationAmount (s :: rest) = some none) ∧
    (∀ (hash : String → String) (now today : String) (donors : List Donor)
      (nameIn : String) (amountIns : List String) (st : List Donor) (out : EntryOutcome),
      getDonationAmount amountIns = some none →
      thankYouEntryOnce hash now today donors nameIn amountIns = some (st, out) →
      st = donors) := by
  constructor
  · intro s rest h
    unfold getDonationAmount
    rw [if_pos h]
  · intro hash now today donors nameIn amountIns st out h hstep
    unfold thankYouEntryOnce at hstep
    rw [h] at hstep
    repeat' split at hstep
    all_goals try exact Option.noConfusion hstep
    all_goals try { injection hstep with h1; injection h1 with h2 h3; exact h2.symm }
    all_goals simp_all

/-- C6, witness: the cancel theorem applied at a concrete store and name,
with the quit directive entered as "QUIT" after one invalid input. -/
theorem C6_witness :
    getDonationAmount ["x", "QUIT"] = some none ∧
    thankYouEntryOnce (fun _ => "H") "T1" "D1" [johnSmith] "Jane Doe"
      ["x", "QUIT"] = some ([johnSmith], .cancelled) ∧
    [johnSmith] = [johnSmith] :=
  ⟨by with_unfolding_all decide, by with_unfolding_all decide,
    C6_cancel_atomicity.2 (fun _ => "H") "T1" "D1" [johnSmith] "Jane Doe"
      ["x", "QUIT"] [johnSmith] .cancelled (by with_unfolding_all decide)
      (by with_unfolding_all decide) ▸ rfl⟩

/-- C9: new-donor construction.  Whenever one pass of `thank_you_entry`
reports a donation for a new donor, the entered name parsed successfully,
no stored donor matched, the amount prompt returned the recorded amount,
and the store became the old store with exactly one record appended at
the end, whose `created` is the current timestamp `now`, whose `user_id`
is the hash of `full_name + now` (hence a function of `full_name` and
`created`), whose `donations` is the single entered donation dated
`today`, and whose name fields are the parsed parts. -/
theorem C9_new_donor_construction
    (hash : String → String) (now today : String) (donors : List Donor)
    (nameIn : String) (amountIns : List String) (st : List Donor) (i : Nat) (a : ℚ)
    (h : thankYouEntryOnce hash now today donors nameIn amountIns =
      some (st, .donated true i a)) :
    i = donors.length ∧
    ∃ p, parseName (pyStrip nameIn) = some p ∧
      findDonor donors p = none ∧
      getDonationAmount amountIns = some (some a) ∧
      st = donors ++ [{ created := now, user_id := hash (p.full_name ++ now),
                        donations := [⟨a, today⟩], full_name := p.full_name,
                        informal_name := p.informal_name, suffix := p.suffix,
                        last_name := p.last_name, first_name := p.first_name }] := by
  unfold thankYouEntryOnce at h
  repeat' split at h
  all_goals try exact Option.noConfusion h
  all_goals injection h with h1
  all_goals injection h1 with h2 h3
  all_goals try exact EntryOutcome.noConfusion h3
  all_goals try { injection h3 with hb hi ha; exact Bool.noConfusion hb }
  rename_i hq hl he x1 p hparse hnm x2 amt hamt x3 hfind
  injection h3 with hb hi ha
  subst ha
  subst hi
  exact ⟨rfl, p, hparse, hfind, hamt, h2.symm⟩

/-- C9, witness: the new-donor theorem applied to an entry of
"John Smith" with amount 50 against a store holding only "Jane Doe". -/
theorem C9_witness :
    (1 : Nat) = [janeDoe].length ∧
    ∃ p, parseName (pyStrip "John Smith") = some p ∧
      findDonor [janeDoe] p = none ∧
      getDonationAmount ["50"] = some (some 50) ∧
      [janeDoe, ⟨"T1", "H", [⟨50, "D1"⟩], "John Smith", "John Smith", "", "Smith", "John"⟩] =
        [janeDoe] ++ [{ created := "T1", user_id := (fun _ => "H") (p.full_name ++ "T1"),
                        donations := [⟨50, "D1"⟩], full_name := p.full_name,
                        informal_name := p.informal_name, suffix := p.suffix,
                        last_name := p.last_name, first_name := p.first_name }] :=
  C9_new_donor_construction (fun _ => "H") "T1" "D1" [janeDoe] "John Smith" ["50"]
    [janeDoe, ⟨"T1", "H", [⟨50, "D1"⟩], "John Smith", "John Smith", "", "Smith", "John"⟩]
    1 50 (by with_unfolding_all decide)

/-- C2, amended: at the amount prompt, a non-quit input that fails to
parse as a number is rejected and the prompt moves on to the next input,
while a non-quit input that parses as a number -- of any sign, including
zero and negatives -- is accepted immediately and is the value recorded. -/
theorem C2_amended_prompt :
    (∀ (s : String) (rest : List String),
      ¬ (pyLower (pyStrip s) = "q" ∨ pyLower (pyStrip s) = "quit") →
      pyFloat (pyStrip s) = none →
      getDonationAmount (s :: rest) = getDonationAmount rest) ∧
    (∀ (s : String) (rest : List String) (a : ℚ),
      ¬ (pyLower (pyStrip s) = "q" ∨ pyLower (pyStrip s) = "quit") →
      pyFloat (pyStrip s) = some a →
      getDonationAmount (s :: rest) = some (some a)) := by
  constructor
  · intro s rest h hf
    simp only [getDonationAmount]
    rw [if_neg h, hf]
  · intro s rest a h hf
    simp only [getDonationAmount]
    rw [if_neg h, hf]

/-- C2, witness: the amended prompt behaviour at the inputs "abc"
(non-numeric, re-prompted) and "-5" (numeric and negative, accepted). -/
theorem C2_amended_witness :
    getDonationAmount ["abc", "-5"] = getDonationAmount ["-5"] ∧
    getDonationAmount ["-5"] = some (some (-5)) :=
  ⟨C2_amended_prompt.1 "abc" ["-5"] (by with_unfolding_all decide)
      (by with_unfolding_all decide),
    C2_amended_prompt.2 "-5" [] (-5) (by with_unfolding_all decide)
      (by with_unfolding_all decide)⟩

/-- C3, amended: name parsing returns normally on every input whose part
before the first comma contains a non-whitespace character; and whenever
a parsed name has an empty first or last name, the pass reports the
invalid name and leaves the store unchanged. -/
theorem C3_amended_no_crash :
    (∀ s : String,
      stripL (s.data.takeWhile (fun c => c != ',')) ≠ [] →
      (parseName s).isSome = true) ∧
    (∀ (hash : String → String) (now today : String) (donors : List Donor)
      (nameIn : String) (amountIns : List String) (p : NameParts),
      ¬ (pyLower (pyStrip nameIn) = "q" ∨ pyLower (pyStrip nameIn) = "quit") →
      ¬ (pyLower (pyStrip nameIn) = "l" ∨ pyLower (pyStrip nameIn) = "list") →
      pyStrip nameIn ≠ "" →
      parseName (pyStrip nameIn) = some p →
      (p.first_name = "" ∨ p.last_name = "") →
      thankYouEntryOnce hash now today donors nameIn amountIns =
        some (donors, .invalidName)) := by
  constructor
  · intro s hne
    rw [← splitOnCharAux_fst_takeWhile] at hne
    simp only [parseName, splitOnChar]
    cases hsb : stripL (splitOnCharAux ',' s.data).1 with
    | nil => exact absurd hsb hne
    | cons c t =>
      have hfix := (stripL_fix_parts (stripL_idem (splitOnCharAux ',' s.data).1)).1
      rw [hsb] at hfix
      have hc : c.isWhitespace = false := dropWhile_fix_head hfix
      unfold titleL
      rw [titleAux_cons]
      cases hw : wordsL (titleChar false c :: titleAux c.isAlpha t) with
      | nil =>
        exfalso
        exact wordsL_ne_nil_of_head_not_ws _
          (by rw [titleChar_isWhitespace]; exact hc) hw
      | cons w ws => simp
  · intro hash now today donors nameIn amountIns p hq hl he hp hempty
    unfold thankYouEntryOnce
    rw [if_neg hq, if_neg hl, if_neg he, hp]
    exact if_pos hempty

/-- C3, witness: "Jane Doe" has a non-whitespace part before the comma so
its parse returns normally, and the single-token "Madonna" parses with an
empty first name and is rejected with the store unchanged. -/
theorem C3_amended_witness :
    (parseName "Jane Doe").isSome = true ∧
    thankYouEntryOnce (fun _ => "H") "T1" "D1" [johnSmith] "Madonna" [] =
      some ([johnSmith], .invalidName) :=
  ⟨C3_amended_no_crash.1 "Jane Doe" (by with_unfolding_all decide),
    C3_amended_no_crash.2 (fun _ => "H") "T1" "D1" [johnSmith] "Madonna" []
      ⟨"Madonna", "Madonna", "", "Madonna", ""⟩
      (by with_unfolding_all decide) (by with_unfolding_all decide)
      (by with_unfolding_all decide) (by with_unfolding_all decide)
      (by with_unfolding_all decide)⟩

/-- Behaviour of the matching loop when every matching donor's stored
`full_name` key agrees with the scanned key (so a match does not change
the comparison key): the loop returns the accumulator and nothing
matches, or it returns the position of the last matching donor. -/
theorem findDonorAux_last_match :
    ∀ (l : List Donor) (i0 : Nat) (key : String) (acc : Option Nat),
      (∀ d ∈ l, storedKey d = key → fullKey d = key) →
      ((findDonorAux l i0 key acc = acc ∧ ∀ d ∈ l, storedKey d ≠ key) ∨
       (∃ k d, findDonorAux l i0 key acc = some (i0 + k) ∧
          l[k]? = some d ∧ storedKey d = key ∧
          ∀ j d', k < j → l[j]? = some d' → storedKey d' ≠ key)) := by
  intro l
  induction l with
  | nil =>
    intro i0 key acc _
    exact Or.inl ⟨rfl, by simp⟩
  | cons d rest ih =>
    intro i0 key acc hcons
    by_cases hd : storedKey d = key
    · have hfull : fullKey d = key := hcons d (List.mem_cons_self d rest) hd
      have hstep : findDonorAux (d :: rest) i0 key acc =
          findDonorAux rest (i0 + 1) key (some i0) := by
        show (if storedKey d = key
            then findDonorAux rest (i0 + 1) (fullKey d) (some i0)
            else findDonorAux rest (i0 + 1) key acc) = _
        rw [if_pos hd, hfull]
      rcases ih (i0 + 1) key (some i0)
          (fun d' hd' => hcons d' (List.mem_cons_of_mem d hd')) with
        ⟨heq, hnone⟩ | ⟨k, d', heq, hget, hkey, hlater⟩
      · refine Or.inr ⟨0, d, ?_, by simp, hd, ?_⟩
        · rw [hstep, heq, Nat.add_zero]
        · intro j d' hj hg
          match j, hj, hg with
          | j + 1, _, hg =>
            rw [List.getElem?_cons_succ] at hg
            exact hnone d' (List.getElem?_mem hg)
      · refine Or.inr ⟨k + 1, d', ?_, ?_, hkey, ?_⟩
        · rw [hstep, heq]
          congr 1
          omega
        · rw [List.getElem?_cons_succ]
          exact hget
        · intro j d'' hj hg
          match j, hj, hg with
          | j + 1, hj, hg =>
            rw [List.getElem?_cons_succ] at hg
            exact hlater j d'' (by omega) hg
    · have hstep : findDonorAux (d :: rest) i0 key acc =
          findDonorAux rest (i0 + 1) key acc := by
        show (if storedKey d = key
            then findDonorAux rest (i0 + 1) (fullKey d) (some i0)
            else findDonorAux rest (i0 + 1) key acc) = _
        rw [if_neg hd]
      rcases ih (i0 + 1) key acc
          (fun d' hd' => hcons d' (List.mem_cons_of_mem d hd')) with
        ⟨heq, hnone⟩ | ⟨k, d', heq, hget, hkey, hlater⟩
      · refine Or.inl ⟨by rw [hstep, heq], ?_⟩
        intro d' hd'
        rcases List.mem_cons.mp hd' with h1 | h1
        · subst h1
          exact hd
        · exact hnone d' h1
      · refine Or.inr ⟨k + 1, d', ?_, ?_, hkey, ?_⟩
        · rw [hstep, heq]
          congr 1
          omega
        · rw [List.getElem?_cons_succ]
          exact hget
        · intro j d'' hj hg
          match j, hj, hg with
          | j + 1, hj, hg =>
            rw [List.getElem?_cons_succ] at hg
            exact hlater j d'' (by omega) hg

/-- C8, amended: lookup scans every donor, comparing the stored
`first_name + " " + last_name` (lower-cased, trimmed) against the
candidate's `full_name` key, and a later match overwrites an earlier one;
so -- whenever the matched records' own full-name keys agree with the
candidate key -- the index returned and subsequently mutated is the LAST
matching one: the returned index holds a matching donor and no donor
after it matches, and a `none` result means no donor matches. -/
theorem C8_amended_last_match_wins
    (donors : List Donor) (p : NameParts)
    (hcons : ∀ d ∈ donors, storedKey d = lowerStrip p.full_name →
      fullKey d = lowerStrip p.full_name) :
    (findDonor donors p = none →
      ∀ d ∈ donors, storedKey d ≠ lowerStrip p.full_name) ∧
    (∀ k, findDonor donors p = some k →
      ∃ d, donors[k]? = some d ∧ storedKey d = lowerStrip p.full_name ∧
        ∀ j d', k < j → donors[j]? = some d' →
          storedKey d' ≠ lowerStrip p.full_name) := by
  have h := findDonorAux_last_match donors 0 (lowerStrip p.full_name) none hcons
  unfold findDonor
  rcases h with ⟨heq, hnone⟩ | ⟨k, d, heq, hget, hkey, hlater⟩
  · constructor
    · intro _
      exact hnone
    · intro k hk
      rw [heq] at hk
      exact Option.noConfusion hk
  · constructor
    · intro h0
      rw [heq] at h0
      exact Option.noConfusion h0
    · intro k' hk'
      rw [heq] at hk'
      injection hk' with hkk
      subst hkk
      rw [Nat.zero_add]
      exact ⟨d, hget, hkey, fun j d' hj hg => hlater j d' (by omega) hg⟩

/-- C8, witness: the amended lookup theorem applied to a store holding two
"John Smith" records; the returned index is 1, the second record. -/
theorem C8_amended_witness :
    ∃ d, ([johnSmith, johnSmith2] : List Donor)[1]? = some d ∧
      storedKey d =
        lowerStrip (NameParts.full_name ⟨"John Smith", "John Smith", "", "Smith", "John"⟩) ∧
      ∀ j d', 1 < j → ([johnSmith, johnSmith2] : List Donor)[j]? = some d' →
        storedKey d' ≠
          lowerStrip (NameParts.full_name ⟨"John Smith", "John Smith", "", "Smith", "John"⟩) :=
  (C8_amended_last_match_wins [johnSmith, johnSmith2]
      ⟨"John Smith", "John Smith", "", "Smith", "John"⟩
      (by with_unfolding_all decide)).2 1 (by with_unfolding_all decide)

/-- C1, amended: the dedup key on the candidate side is the canonical
`full_name` (suffix included, internal whitespace preserved), lower-cased
and trimmed.  When exactly one stored donor's "first last" key equals the
entered name's full-name key and that record's own full-name key agrees,
the entry resolves to that donor and appends the donation to it -- no
second record is created. -/
theorem C1_amended_matching
    (hash : String → String) (now today : String) (donors : List Donor)
    (nameIn : String) (amountIns : List String) (p : NameParts) (i : Nat)
    (d : Donor) (a : ℚ)
    (hq : ¬ (pyLower (pyStrip nameIn) = "q" ∨ pyLower (pyStrip nameIn) = "quit"))
    (hl : ¬ (pyLower (pyStrip nameIn) = "l" ∨ pyLower (pyStrip nameIn) = "list"))
    (he : pyStrip nameIn ≠ "")
    (hp : parseName (pyStrip nameIn) = some p)
    (hnm : ¬ (p.first_name = "" ∨ p.last_name = ""))
    (hget : donors[i]? = some d)
    (hkey : storedKey d = lowerStrip p.full_name)
    (hfull : fullKey d = lowerStrip p.full_name)
    (huniq : ∀ j d', j ≠ i → donors[j]? = some d' →
      storedKey d' ≠ lowerStrip p.full_name)
    (hamt : getDonationAmount amountIns = some (some a)) :
    thankYouEntryOnce hash now today donors nameIn amountIns =
      some (donors.set i { d with donations := d.donations ++ [⟨a, today⟩] },
        .donated false i a) := by
  have hcons : ∀ d' ∈ donors, storedKey d' = lowerStrip p.full_name →
      fullKey d' = lowerStrip p.full_name := by
    intro d' hd' hk'
    rcases List.mem_iff_getElem?.mp hd' with ⟨j, hj⟩
    by_cases hji : j = i
    · subst hji
      rw [hj] at hget
      injection hget with hdd
      subst hdd
      exact hfull
    · exact absurd hk' (huniq j d' hji hj)
  have hfind : findDonor donors p = some i := by
    cases hfd : findDonor donors p with
    | none =>
      exact absurd hkey
        ((C8_amended_last_match_wins donors p hcons).1 hfd d (List.getElem?_mem hget))
    | some k =>
      rcases (C8_amended_last_match_wins donors p hcons).2 k hfd with ⟨d'', hg'', hk'', _⟩
      by_cases hki : k = i
      · rw [hki]
      · exact absurd hk'' (huniq k d'' hki hg'')
  unfold thankYouEntryOnce
  rw [if_neg hq, if_neg hl, if_neg he, hp]
  simp only [if_neg hnm, hamt, hfind, hget]

/-- C1, witness: re-entering the stored donor "John Smith" with different
casing and extra surrounding whitespace resolves to the stored record and
appends the donation instead of creating a new record. -/
theorem C1_amended_witness :
    thankYouEntryOnce (fun _ => "H") "T1" "D1" [johnSmith] "  JOHN smith  " ["25"] =
      some (([johnSmith] : List Donor).set 0
        { johnSmith with donations := johnSmith.donations ++ [⟨25, "D1"⟩] },
        .donated false 0 25) :=
  C1_amended_matching (fun _ => "H") "T1" "D1" [johnSmith] "  JOHN smith  " ["25"]
    ⟨"John Smith", "John Smith", "", "Smith", "John"⟩ 0 johnSmith 25
    (by with_unfolding_all decide) (by with_unfolding_all decide)
    (by with_unfolding_all decide) (by with_unfolding_all decide)
    (by with_unfolding_all decide) (by with_unfolding_all decide)
    (by with_unfolding_all decide) (by with_unfolding_all decide)
    (by
      intro j d' hj hg
      have hlen : ([johnSmith] : List Donor).length ≤ j := by
        simp only [List.length_cons, List.length_nil]
        omega
      rw [List.getElem?_eq_none hlen] at hg
      exact Option.noConfusion hg)
    (by with_unfolding_all decide)

/-- Appending an empty donation list is the identity on a donor record. -/
theorem donor_append_nil (d : Donor) :
    ({ d with donations := d.donations ++ [] } : Donor) = d := by
  cases d
  simp

/-- The amount prompt accepts a non-quit input that parses as a number. -/
theorem getDonationAmount_accepts {s : String} {a : ℚ} (rest : List String)
    (h1 : ¬ (pyLower (pyStrip s) = "q" ∨ pyLower (pyStrip s) = "quit"))
    (h2 : pyFloat (pyStrip s) = some a) :
    getDonationAmount (s :: rest) = some (some a) := by
  simp only [getDonationAmount]
  rw [if_neg h1, h2]

/-- Lookup in a one-donor store whose stored key equals the candidate
key returns index 0. -/
theorem findDonor_singleton {r : Donor} {p : NameParts}
    (hkey : storedKey r = lowerStrip p.full_name) :
    findDonor [r] p = some 0 := by
  unfold findDonor
  show (if storedKey r = lowerStrip p.full_name
      then findDonorAux [] (0 + 1) (fullKey r) (some 0)
      else findDonorAux [] (0 + 1) (lowerStrip p.full_name) none) = some 0
  rw [if_pos hkey]
  rfl

/-- One entry pass against a one-donor store whose key matches: the
donation is appended to that donor. -/
theorem entry_single_existing
    (hash : String → String) (now today : String) (r : Donor)
    (nameIn s : String) (p : NameParts) (a : ℚ)
    (hq : ¬ (pyLower (pyStrip nameIn) = "q" ∨ pyLower (pyStrip nameIn) = "quit"))
    (hl : ¬ (pyLower (pyStrip nameIn) = "l" ∨ pyLower (pyStrip nameIn) = "list"))
    (he : pyStrip nameIn ≠ "")
    (hp : parseName (pyStrip nameIn) = some p)
    (hnm : ¬ (p.first_name = "" ∨ p.last_name = ""))
    (hkey : storedKey r = lowerStrip p.full_name)
    (hnq : ¬ (pyLower (pyStrip s) = "q" ∨ pyLower (pyStrip s) = "quit"))
    (hfa : pyFloat (pyStrip s) = some a) :
    thankYouEntryOnce hash now today [r] nameIn [s] =
      some ([{ r with donations := r.donations ++ [⟨a, today⟩] }],
        .donated false 0 a) := by
  unfold thankYouEntryOnce
  rw [if_neg hq, if_neg hl, if_neg he, hp]
  simp only [if_neg hnm, getDonationAmount_accepts [] hnq hfa,
    findDonor_singleton hkey, List.getElem?_cons_zero]
  rfl

/-- Iterated entries of the same self-matching name against a one-donor
store with that name: every amount is appended in order. -/
theorem iterEntries_singleton
    (hash : String → String) (now today nameIn : String) (p : NameParts)
    (hq : ¬ (pyLower (pyStrip nameIn) = "q" ∨ pyLower (pyStrip nameIn) = "quit"))
    (hl : ¬ (pyLower (pyStrip nameIn) = "l" ∨ pyLower (pyStrip nameIn) = "list"))
    (he : pyStrip nameIn ≠ "")
    (hp : parseName (pyStrip nameIn) = some p)
    (hnm : ¬ (p.first_name = "" ∨ p.last_name = ""))
    (hself : lowerStrip p.full_name = lowerStrip (p.first_name ++ " " ++ p.last_name)) :
    ∀ (ins : List String) (amts : List ℚ) (r : Donor),
      r.full_name = p.full_name → r.first_name = p.first_name →
      r.last_name = p.last_name →
      List.Forall₂ (fun s a =>
        ¬ (pyLower (pyStrip s) = "q" ∨ pyLower (pyStrip s) = "quit") ∧
        pyFloat (pyStrip s) = some a) ins amts →
      iterEntries hash now today nameIn [r] ins =
        some [{ r with donations :=
          r.donations ++ amts.map (fun x => (⟨x, today⟩ : Donation)) }] := by
  intro ins
  induction ins with
  | nil =>
    intro amts r h1 h2 h3 hf
    cases hf
    simp only [List.map_nil]
    rw [donor_append_nil]
    rfl
  | cons s rest ih =>
    intro amts r h1 h2 h3 hf
    match amts, hf with
    | a :: as, List.Forall₂.cons hsa hrest =>
      obtain ⟨hnq, hfa⟩ := hsa
      have hkey : storedKey r = lowerStrip p.full_name := by
        unfold storedKey
        rw [h2, h3, hself]
      have hstep := entry_single_existing hash now today r nameIn s p a
        hq hl he hp hnm hkey hnq hfa
      have hred : iterEntries hash now today nameIn [r] (s :: rest) =
          iterEntries hash now today nameIn
            [{ r with donations := r.donations ++ [⟨a, today⟩] }] rest := by
        show (match thankYouEntryOnce hash now today [r] nameIn [s] with
          | some (st, .donated _ _ _) => iterEntries hash now today nameIn st rest
          | _ => none) = _
        rw [hstep]
      rw [hred,
        ih as { r with donations := r.donations ++ [⟨a, today⟩] } h1 h2 h3 hrest]
      simp [List.append_assoc]

/-- C7: the store is append-only.  First, a pass that records a donation
for an existing donor mutates exactly that donor, replacing it with the
same record extended by the one new donation and leaving every other
entry of the store unchanged (the store is an update at one index).
Second, any completed pass preserves every stored donor at its index, at
most extending its donations; no donor or donation is removed or
reordered.  Third, after N successful donation entries of the same
(self-matching) name starting from an empty store, the store holds one
donor whose donations are exactly the N entered amounts in entry
order. -/
theorem C7_append_only :
    (∀ (hash : String → String) (now today : String) (donors : List Donor)
      (nameIn : String) (amountIns : List String) (st : List Donor) (i : Nat) (a : ℚ),
      thankYouEntryOnce hash now today donors nameIn amountIns =
        some (st, .donated false i a) →
      ∃ d, donors[i]? = some d ∧
        st = donors.set i { d with donations := d.donations ++ [⟨a, today⟩] }) ∧
    (∀ (hash : String → String) (now today : String) (donors : List Donor)
      (nameIn : String) (amountIns : List String) (st : List Donor) (out : EntryOutcome),
      thankYouEntryOnce hash now today donors nameIn amountIns = some (st, out) →
      donors.length ≤ st.length ∧
      ∀ (j : Nat) (d : Donor), donors[j]? = some d →
        ∃ tail, st[j]? = some { d with donations := d.donations ++ tail }) ∧
    (∀ (hash : String → String) (now today nameIn : String) (p : NameParts)
      (s1 : String) (a1 : ℚ) (restIns : List String) (restAmts : List ℚ),
      ¬ (pyLower (pyStrip nameIn) = "q" ∨ pyLower (pyStrip nameIn) = "quit") →
      ¬ (pyLower (pyStrip nameIn) = "l" ∨ pyLower (pyStrip nameIn) = "list") →
      pyStrip nameIn ≠ "" →
      parseName (pyStrip nameIn) = some p →
      ¬ (p.first_name = "" ∨ p.last_name = "") →
      lowerStrip p.full_name = lowerStrip (p.first_name ++ " " ++ p.last_name) →
      List.Forall₂ (fun s a =>
        ¬ (pyLower (pyStrip s) = "q" ∨ pyLower (pyStrip s) = "quit") ∧
        pyFloat (pyStrip s) = some a) (s1 :: restIns) (a1 :: restAmts) →
      iterEntries hash now today nameIn [] (s1 :: restIns) =
        some [{ created := now, user_id := hash (p.full_name ++ now),
                donations := (a1 :: restAmts).map (fun x => (⟨x, today⟩ : Donation)),
                full_name := p.full_name, informal_name := p.informal_name,
                suffix := p.suffix, last_name := p.last_name,
                first_name := p.first_name }]) := by
  refine ⟨?_, ?_, ?_⟩
  · intro hash now today donors nameIn amountIns st i a h
    unfold thankYouEntryOnce at h
    repeat' split at h
    all_goals try exact Option.noConfusion h
    all_goals injection h with h1
    all_goals injection h1 with h2 h3
    all_goals try exact EntryOutcome.noConfusion h3
    all_goals try { injection h3 with hb hi ha; exact Bool.noConfusion hb }
    rename_i hq hl he x1 p hparse hnm x2 amt hamt x3 i2 hfind x4 d hget
    injection h3 with hb hi ha
    subst ha
    subst hi
    exact ⟨d, hget, h2.symm⟩
  · intro hash now today donors nameIn amountIns st out h
    unfold thankYouEntryOnce at h
    repeat' split at h
    all_goals try exact Option.noConfusion h
    all_goals injection h with h1
    all_goals injection h1 with h2 h3
    all_goals try {
      subst h2
      refine ⟨Nat.le_refl _, ?_⟩
      intro j d hj
      exact ⟨[], by rw [donor_append_nil]; exact hj⟩ }
    · rename_i hq hl he x1 p hparse hnm x2 amt hamt x3 i2 hfind x4 d hget
      subst h2
      constructor
      · rw [List.length_set]
      · intro j d' hj
        by_cases hij : i2 = j
        · subst hij
          have hlt : i2 < donors.length := by
            by_contra hge
            rw [List.getElem?_eq_none (by omega)] at hj
            exact Option.noConfusion hj
          rw [hj] at hget
          injection hget with hdd
          subst hdd
          exact ⟨[⟨amt, today⟩], by rw [List.getElem?_set_self hlt]⟩
        · exact ⟨[], by
            rw [List.getElem?_set_ne hij, donor_append_nil]
            exact hj⟩
    · rename_i hq hl he x1 p hparse hnm x2 amt hamt x3 hfind
      subst h2
      constructor
      · rw [List.length_append]
        omega
      · intro j d hj
        have hlt : j < donors.length := by
          by_contra hge
          rw [List.getElem?_eq_none (by omega)] at hj
          exact Option.noConfusion hj
        exact ⟨[], by
          rw [List.getElem?_append_left hlt, donor_append_nil]
          exact hj⟩
  · intro hash now today nameIn p s1 a1 restIns restAmts hq hl he hp hnm hself hf
    cases hf with
    | cons hsa hrest =>
      obtain ⟨hnq, hfa⟩ := hsa
      have hstep : thankYouEntryOnce hash now today [] nameIn [s1] =
          some ([newDonor hash now today p a1], .donated true 0 a1) := by
        unfold thankYouEntryOnce
        rw [if_neg hq, if_neg hl, if_neg he, hp]
        simp only [if_neg hnm, getDonationAmount_accepts [] hnq hfa]
        rfl
      show (match thankYouEntryOnce hash now today [] nameIn [s1] with
        | some (st, .donated _ _ _) => iterEntries hash now today nameIn st restIns
        | _ => none) = _
      rw [hstep]
      show iterEntries hash now today nameIn [newDonor hash now today p a1] restIns = _
      rw [iterEntries_singleton hash now today nameIn p hq hl he hp hnm hself
        restIns restAmts (newDonor hash now today p a1) rfl rfl rfl hrest]
      rfl

/-- C7, witness: two successive entries of "Jane Doe" with amounts 10 and
20.50 against an empty store yield one donor holding exactly those two
donations in entry order. -/
theorem C7_witness :
    iterEntries (fun _ => "H") "T1" "D1" "Jane Doe" [] ["10", "20.50"] =
      some [{ created := "T1", user_id := (fun _ => "H") ("Jane Doe" ++ "T1"),
              donations := ((10 : ℚ) :: [(41 : ℚ)/2]).map (fun x => (⟨x, "D1"⟩ : Donation)),
              full_name := "Jane Doe", informal_name := "Jane Doe",
              suffix := "", last_name := "Doe", first_name := "Jane" }] :=
  C7_append_only.2.2 (fun _ => "H") "T1" "D1" "Jane Doe"
    ⟨"Jane Doe", "Jane Doe", "", "Doe", "Jane"⟩ "10" 10 ["20.50"] [41/2]
    (by with_unfolding_all decide) (by with_unfolding_all decide)
    (by with_unfolding_all decide) (by with_unfolding_all decide)
    (by with_unfolding_all decide) (by with_unfolding_all decide)
    (List.Forall₂.cons
      ⟨by with_unfolding_all decide, by with_unfolding_all decide⟩
      (List.Forall₂.cons
        ⟨by with_unfolding_all decide, by with_unfolding_all decide⟩
        List.Forall₂.nil))

/-- The running total of `print_report` is the sum of the amounts. -/
theorem foldl_amount_eq_sum :
    ∀ (ds : List Donation) (acc : ℚ),
      ds.foldl (fun a x => a + x.amount) acc = acc + (ds.map Donation.amount).sum := by
  intro ds
  induction ds with
  | nil => intro acc; simp
  | cons d t ih =>
    intro acc
    rw [List.foldl_cons, ih, List.map_cons, List.sum_cons]
    ring

theorem donorTotal_eq_sum (d : Donor) :
    donorTotal d = (d.donations.map Donation.amount).sum := by
  unfold donorTotal
  rw [foldl_amount_eq_sum]
  simp

/-- Characterisation of the report rows: one row per donor in order, with
the computed total, count and average. -/
theorem reportRowsAux_spec :
    ∀ (l : List Donor) (i0 : Nat) (rows : List ReportRow),
      reportRowsAux i0 l = some rows →
      rows.length = l.length ∧
      ∀ (j : Nat) (d : Donor), l[j]? = some d →
        rows[j]? = some { idx := i0 + j, name := d.full_name,
                          total := (d.donations.map Donation.amount).sum,
                          numGifts := d.donations.length,
                          avgGift := (d.donations.map Donation.amount).sum /
                            (d.donations.length : ℚ) } := by
  intro l
  induction l with
  | nil =>
    intro i0 rows h
    unfold reportRowsAux at h
    injection h with h1
    subst h1
    refine ⟨rfl, ?_⟩
    intro j d hj
    simp at hj
  | cons d rest ih =>
    intro i0 rows h
    unfold reportRowsAux at h
    split at h
    · exact Option.noConfusion h
    · split at h
      · exact Option.noConfusion h
      · rename_i hnz x rs hrs
        injection h with h1
        subst h1
        rcases ih (i0 + 1) rs hrs with ⟨hlen, hrow⟩
        refine ⟨by simp [hlen], ?_⟩
        intro j d' hj
        match j with
        | 0 =>
          rw [List.getElem?_cons_zero] at hj
          injection hj with hd
          subst hd
          rw [List.getElem?_cons_zero, Nat.add_zero, donorTotal_eq_sum]
        | j + 1 =>
          rw [List.getElem?_cons_succ] at hj
          rw [List.getElem?_cons_succ, hrow j d' hj]
          have : i0 + 1 + j = i0 + (j + 1) := by omega
          rw [this]

/-- C5: report correctness.  Every row list produced by `print_report`
has one row per donor, in store order, showing the donor's display name,
a total equal to the sum of its donation amounts, the count of its
donations, and an average equal to total divided by count; and for a
donor with donations 10.00 and 20.50 the computed row is total 30.50,
count 2, average 15.25, rendered with zero-padded index and two-decimal
currency fields exactly as the fixed-width format string prescribes. -/
theorem C5_report_correctness :
    (∀ (donors : List Donor) (rows : List ReportRow),
      reportRows donors = some rows →
      rows.length = donors.length ∧
      ∀ (j : Nat) (d : Donor), donors[j]? = some d →
        rows[j]? = some { idx := j, name := d.full_name,
                          total := (d.donations.map Donation.amount).sum,
                          numGifts := d.donations.length,
                          avgGift := (d.donations.map Donation.amount).sum /
                            (d.donations.length : ℚ) }) ∧
    reportRows [janeDoe] = some [⟨0, "Jane Doe", 61/2, 2, 61/4⟩] ∧
    renderRow ⟨0, "Jane Doe", 61/2, 2, 61/4⟩ =
      "00000   Jane Doe              $         30.50           2  $       15.25" := by
  refine ⟨?_, ?_, ?_⟩
  · intro donors rows h
    rcases reportRowsAux_spec donors 0 rows h with ⟨hlen, hrow⟩
    refine ⟨hlen, ?_⟩
    intro j d hj
    have h2 := hrow j d hj
    rwa [Nat.zero_add] at h2
  · with_unfolding_all decide
  · with_unfolding_all decide

/-- C5, witness: the row characterisation applied to the one-donor store
holding "Jane Doe" with donations 10.00 and 20.50. -/
theorem C5_witness :
    ([⟨0, "Jane Doe", 61/2, 2, 61/4⟩] : List ReportRow).length =
      ([janeDoe] : List Donor).length ∧
    ∀ (j : Nat) (d : Donor), ([janeDoe] : List Donor)[j]? = some d →
      ([⟨0, "Jane Doe", 61/2, 2, 61/4⟩] : List ReportRow)[j]? =
        some { idx := j, name := d.full_name,
               total := (d.donations.map Donation.amount).sum,
               numGifts := d.donations.length,
               avgGift := (d.donations.map Donation.amount).sum /
                 (d.donations.length : ℚ) } :=
  C5_report_correctness.1 [janeDoe] [⟨0, "Jane Doe", 61/2, 2, 61/4⟩]
    (by with_unfolding_all decide)

/-- Every whitespace token of the title-cased remainder is a fixed point
of both title-casing (with a fresh word boundary) and stripping. -/
theorem tokens_fixed {B : List Char} :
    ∀ w ∈ wordsL (titleL (stripL B)), titleAux false w = w ∧ stripL w = w := by
  intro w hw
  constructor
  · unfold titleL at hw
    rw [wordsL_titleAux] at hw
    rcases List.mem_map.mp hw with ⟨w0, hw0, hmap⟩
    rw [← hmap]
    exact titleAux_idem w0 false
  · exact stripL_of_no_ws ((wordsL_mem_no_ws _ w hw).2)

/-- The re-stripping and re-title-casing that `parse_name` applies to the
extracted last token and to the joined first-name tokens are identities,
so the parser agrees with the specification postcondition. -/
theorem parse_eq_spec {s : String} {p : NameParts} (h : parseName s = some p) :
    parseNameSpec s = some p := by
  cases hw : wordsL (titleL (stripL (splitOnCharAux ',' s.data).1)) with
  | nil =>
    simp only [parseName, splitOnChar, hw] at h
    exact Option.noConfusion h
  | cons w ws =>
    simp only [parseName, splitOnChar, hw] at h
    simp only [parseNameSpec, splitOnChar, hw]
    have hmem : (w :: ws).getLast (List.cons_ne_nil w ws) ∈
        wordsL (titleL (stripL (splitOnCharAux ',' s.data).1)) := by
      rw [hw]
      exact List.getLast_mem _
    have hlast := tokens_fixed _ hmem
    have hfirst : titleAux false (joinSep ((w :: ws).dropLast)) =
        joinSep ((w :: ws).dropLast) :=
      joinSep_titleAux_fix _ (fun u hu =>
        (tokens_fixed u (by rw [hw]; exact List.dropLast_subset _ hu)).1)
    rw [← h]
    unfold titleL
    rw [hlast.2, hlast.1, hfirst]

/-- C4: the name-parse postcondition.  On accepted inputs, `parse_name`
computes exactly what the specification prescribes: the piece after the
comma, stripped and upper-cased, is the suffix (empty when absent); the
piece before the comma, stripped and title-cased, splits on whitespace
into the last token as `last_name` and the earlier tokens joined by
single spaces as `first_name`; and `full_name` is the title-cased
remainder, followed by a comma and the suffix when one is present.  In
particular "Jane Doe" and "John Smith, Jr" parse as the specification
says. -/
theorem C4_parse_postcondition :
    (∀ (s : String) (p : NameParts), parseName s = some p →
      p.first_name ≠ "" → p.last_name ≠ "" → parseNameSpec s = some p) ∧
    parseName "Jane Doe" = some ⟨"Jane Doe", "Jane Doe", "", "Doe", "Jane"⟩ ∧
    parseName "John Smith, Jr" =
      some ⟨"John Smith, JR", "John Smith", "JR", "Smith", "John"⟩ := by
  refine ⟨?_, by with_unfolding_all decide, by with_unfolding_all decide⟩
  intro s p h _ _
  exact parse_eq_spec h

/-- C4, witness: the postcondition theorem applied to "Jane Doe". -/
theorem C4_witness :
    parseNameSpec "Jane Doe" = some ⟨"Jane Doe", "Jane Doe", "", "Doe", "Jane"⟩ :=
  C4_parse_postcondition.1 "Jane Doe" ⟨"Jane Doe", "Jane Doe", "", "Doe", "Jane"⟩
    (by with_unfolding_all decide) (by with_unfolding_all decide)
    (by with_unfolding_all decide)

/-- Stripping discards a leading whitespace character. -/
theorem stripL_cons_ws {c : Char} (l : List Char) (hc : c.isWhitespace = true) :
    stripL (c :: l) = stripL l := by
  unfold stripL
  rw [List.dropWhile_cons_of_pos (by simp [hc])]

/-- C10: parse normalization is idempotent.  Feeding the canonical
`full_name` produced by a successful, accepted parse back into
`parse_name` reproduces exactly the same parts. -/
theorem C10_parse_idempotent
    (s : String) (p : NameParts) (h : parseName s = some p)
    (h1 : p.first_name ≠ "") (h2 : p.last_name ≠ "") :
    parseName p.full_name = some p := by
  cases hw : wordsL (titleL (stripL (splitOnCharAux ',' s.data).1)) with
  | nil =>
    simp only [parseName, splitOnChar, hw] at h
    exact Option.noConfusion h
  | cons w ws =>
    simp only [parseName, splitOnChar, hw] at h
    have hw' : wordsL (titleAux false (stripL (splitOnCharAux ',' s.data).1)) = w :: ws := hw
    have hBnc : ∀ c ∈ (splitOnCharAux ',' s.data).1, c ≠ ',' :=
      (splitOnCharAux_no_sep_inside ',' s.data).1
    have hInc : ∀ c ∈ titleAux false (stripL (splitOnCharAux ',' s.data).1), c ≠ ',' :=
      titleAux_ne_comma false (fun c hc => hBnc c (mem_stripL hc))
    have hIstrip : stripL (titleAux false (stripL (splitOnCharAux ',' s.data).1)) =
        titleAux false (stripL (splitOnCharAux ',' s.data).1) :=
      stripL_titleAux_fix false (stripL_idem _)
    have hItitle : titleAux false (titleAux false (stripL (splitOnCharAux ',' s.data).1)) =
        titleAux false (stripL (splitOnCharAux ',' s.data).1) :=
      titleAux_idem _ false
    cases hparts : (splitOnCharAux ',' s.data).2 with
    | nil =>
      simp only [hparts] at h
      rw [if_neg (show ¬ (([] : List Char) ≠ []) by simp)] at h
      injection h with hp
      subst hp
      simp only [parseName, splitOnChar, titleL]
      rw [splitOnCharAux_no_sep hInc]
      simp only [hIstrip, hItitle, hw']
      rw [if_neg (show ¬ (([] : List Char) ≠ []) by simp)]
    | cons p1 rest2 =>
      simp only [hparts] at h
      have hp1nc : ∀ c ∈ p1, c ≠ ',' :=
        (splitOnCharAux_no_sep_inside ',' s.data).2 p1
          (by rw [hparts]; exact List.mem_cons_self _ _)
      have hsfxnc : ∀ c ∈ upperL (stripL p1), c ≠ ',' :=
        upperL_ne_comma (fun c hc => hp1nc c (mem_stripL hc))
      have hsfxstrip : stripL (upperL (stripL p1)) = upperL (stripL p1) := by
        rw [upperL_stripL, stripL_idem]
      have hsfxupper : upperL (upperL (stripL p1)) = upperL (stripL p1) :=
        upperL_idem _
      by_cases hse : upperL (stripL p1) = []
      · rw [if_neg (show ¬ (upperL (stripL p1) ≠ []) by simp [hse])] at h
        injection h with hp
        subst hp
        simp only [parseName, splitOnChar, titleL]
        rw [splitOnCharAux_no_sep hInc]
        simp only [hIstrip, hItitle, hw']
        rw [hse]
        rw [if_neg (show ¬ (([] : List Char) ≠ []) by simp)]
      · rw [if_pos hse] at h
        injection h with hp
        subst hp
        have hbnc : ∀ c ∈ ' ' :: upperL (stripL p1), c ≠ ',' := by
          intro c hc
          rcases List.mem_cons.mp hc with h3 | h3
          · subst h3
            decide
          · exact hsfxnc c h3
        have hspl : splitOnCharAux ','
            (titleAux false (stripL (splitOnCharAux ',' s.data).1) ++
              ',' :: ' ' :: upperL (stripL p1)) =
            (titleAux false (stripL (splitOnCharAux ',' s.data).1),
              [' ' :: upperL (stripL p1)]) := by
          rw [splitOnCharAux_append hInc, splitOnCharAux_no_sep hbnc]
        have hsp : stripL (' ' :: upperL (stripL p1)) = upperL (stripL p1) := by
          rw [stripL_cons_ws _ (by decide), hsfxstrip]
        simp only [parseName, splitOnChar, titleL]
        rw [hspl]
        simp only [hsp, hsfxupper, hIstrip, hItitle, hw']
        rw [if_pos hse]

/-- C10, witness: re-parsing the canonical "John Smith, JR" produced by
parsing "John Smith, Jr" reproduces the same parts. -/
theorem C10_witness :
    parseName (NameParts.full_name
        ⟨"John Smith, JR", "John Smith", "JR", "Smith", "John"⟩) =
      some ⟨"John Smith, JR", "John Smith", "JR", "Smith", "John"⟩ :=
  C10_parse_idempotent "John Smith, Jr"
    ⟨"John Smith, JR", "John Smith", "JR", "Smith", "John"⟩
    (by with_unfolding_all decide) (by with_unfolding_all decide)
    (by with_unfolding_all decide)

end Mailroom
